import Mathlib

/-!
Verification of the client-side list logic of a personal-finance web app.

This file gives a shallow embedding, in Lean 4, of the pure list-processing
code of the application: the transaction filter/sort/group pipeline of the
transactions page, the totals displayed above it, the category-tree count
and the parent selector of the category manager, the wallet summaries, the
single-collection refresh functions of the app state, and the income
classification rule of the mobile transaction item.

Timestamps are modelled as integer milliseconds since the Unix epoch
(calendar arithmetic is done in UTC) and monetary amounts as integers.
-/

namespace SpendingSpark

/-- A transaction as read by the transactions-page pipeline: signed amount,
optional user-assigned business date (`transaction_time`) and optional
system creation date (`entry_time`), both in milliseconds since the epoch.
The `id` field stands for the remaining payload. -/
structure Transaction where
  id : Int
  amount : Int
  transaction_time : Option Int
  entry_time : Option Int
deriving DecidableEq, Repr

/-- The effective date of a transaction, as evaluated by the type/date
filters and the sort step: `new Date(t.transaction_time || t.entry_time || 0)`. -/
def effTime (t : Transaction) : Int :=
  match t.transaction_time with
  | some x => x
  | none =>
    match t.entry_time with
    | some e => e
    | none => 0

/-- The three values of the transactions-page type filter. -/
inductive TypeFilter where
  | all
  | income
  | expense
deriving DecidableEq, Repr

/-- The type-filter step of `filteredTransactions`: `income` keeps
`t.amount >= 0`, `expense` keeps `t.amount < 0`, `all` applies no filter. -/
def filterByType : TypeFilter → List Transaction → List Transaction
  | .all, l => l
  | .income, l => l.filter fun t => decide (0 ≤ t.amount)
  | .expense, l => l.filter fun t => decide (t.amount < 0)

/-- Scenario A of the spec, first transaction: amount −50 at time T0. -/
def coffeeTx : Transaction :=
  { id := 1, amount := -50, transaction_time := some 1000, entry_time := none }

/-- Scenario A of the spec, second transaction: amount 1000 at time T1 > T0. -/
def salaryTx : Transaction :=
  { id := 2, amount := 1000, transaction_time := some 2000, entry_time := none }

/-- The summary record computed from the filtered transaction list. -/
structure Totals where
  income : Int
  expenses : Int
  net : Int
deriving DecidableEq, Repr

/-- The `totals` memo of the transactions page, computed from its input
list (the page passes the already filtered list): income is the sum of the
non-negative amounts, expenses is the absolute value of the sum of the
negative amounts, net is income minus expenses. -/
def totalsOf (filtered : List Transaction) : Totals :=
  let income :=
    (filtered.filter fun t => decide (0 ≤ t.amount)).foldl (fun sum t => sum + t.amount) 0
  let expenses :=
    |(filtered.filter fun t => decide (t.amount < 0)).foldl (fun sum t => sum + t.amount) 0|
  { income := income, expenses := expenses, net := income - expenses }

/-- Sum of the amounts of a list of transactions. -/
def sumAmounts (l : List Transaction) : Int :=
  (l.map Transaction.amount).sum

theorem foldl_add_amount (l : List Transaction) (a : Int) :
    l.foldl (fun sum t => sum + t.amount) a = a + sumAmounts l := by
  induction l generalizing a with
  | nil => simp [sumAmounts]
  | cons t l ih =>
    simp only [List.foldl_cons, ih, sumAmounts, List.map_cons, List.sum_cons]
    ring

theorem sumAmounts_filter_split (l : List Transaction) :
    sumAmounts (l.filter fun t => decide (0 ≤ t.amount))
      + sumAmounts (l.filter fun t => decide (t.amount < 0)) = sumAmounts l := by
  induction l with
  | nil => simp [sumAmounts]
  | cons t l ih =>
    rcases le_or_lt 0 t.amount with h | h
    · rw [List.filter_cons, List.filter_cons, if_pos (by simpa using h),
        if_neg (by simpa using not_lt.mpr h)]
      simp only [sumAmounts, List.map_cons, List.sum_cons] at *
      omega
    · rw [List.filter_cons, List.filter_cons, if_neg (by simpa using not_le.mpr h),
        if_pos (by simpa using h)]
      simp only [sumAmounts, List.map_cons, List.sum_cons] at *
      omega

theorem sumAmounts_neg_nonpos (l : List Transaction) :
    sumAmounts (l.filter fun t => decide (t.amount < 0)) ≤ 0 := by
  induction l with
  | nil => simp [sumAmounts]
  | cons t l ih =>
    by_cases h : t.amount < 0
    · rw [List.filter_cons, if_pos (by simpa using h)]
      simp only [sumAmounts, List.map_cons, List.sum_cons] at *
      omega
    · rw [List.filter_cons, if_neg (by simpa using h)]
      exact ih

/-- C1: the type filter with `income` keeps exactly the transactions with
amount ≥ 0, with `expense` exactly those with amount < 0, and with `all`
returns the input unchanged; income and expense filters partition the
input by sign, filtering is idempotent, and on Scenario A's list the
expense filter yields exactly the −50 transaction. -/
theorem filterByType_spec (l : List Transaction) :
    (∀ t, t ∈ filterByType .income l ↔ t ∈ l ∧ 0 ≤ t.amount)
    ∧ (∀ t, t ∈ filterByType .expense l ↔ t ∈ l ∧ t.amount < 0)
    ∧ filterByType .all l = l
    ∧ (filterByType .income l ++ filterByType .expense l).Perm l
    ∧ (∀ f : TypeFilter, filterByType f (filterByType f l) = filterByType f l)
    ∧ filterByType .expense [coffeeTx, salaryTx] = [coffeeTx] := by
  refine ⟨?_, ?_, rfl, ?_, ?_, by decide⟩
  · intro t
    simp [filterByType, List.mem_filter]
  · intro t
    simp [filterByType, List.mem_filter]
  · have hq : filterByType .expense l
        = l.filter fun t => !decide (0 ≤ t.amount) := by
      refine List.filter_congr fun t _ => ?_
      rw [← decide_not, decide_eq_decide]
      exact Int.not_le.symm
    rw [show filterByType .income l = l.filter fun t => decide (0 ≤ t.amount) from rfl, hq]
    exact List.filter_append_perm _ l
  · intro f
    cases f with
    | all => rfl
    | income => simp [filterByType, List.filter_filter]
    | expense => simp [filterByType, List.filter_filter]

/-- C2: for every filtered list, income is the sum of its non-negative
amounts, expenses the absolute value of the sum of its negative amounts,
net is income minus expenses, and therefore income − expenses = net and
income plus the (negative) sum of the expense amounts equals the sum of
all filtered amounts. -/
theorem totalsOf_spec (filtered : List Transaction) :
    (totalsOf filtered).income = sumAmounts (filtered.filter fun t => decide (0 ≤ t.amount))
    ∧ (totalsOf filtered).expenses
        = |sumAmounts (filtered.filter fun t => decide (t.amount < 0))|
    ∧ (totalsOf filtered).net = (totalsOf filtered).income - (totalsOf filtered).expenses
    ∧ (totalsOf filtered).income - (totalsOf filtered).expenses = (totalsOf filtered).net
    ∧ (totalsOf filtered).income
        + sumAmounts (filtered.filter fun t => decide (t.amount < 0))
      = sumAmounts filtered := by
  have hinc : (totalsOf filtered).income
      = sumAmounts (filtered.filter fun t => decide (0 ≤ t.amount)) := by
    simp [totalsOf, foldl_add_amount]
  have hexp : (totalsOf filtered).expenses
      = |sumAmounts (filtered.filter fun t => decide (t.amount < 0))| := by
    simp [totalsOf, foldl_add_amount]
  refine ⟨hinc, hexp, rfl, rfl, ?_⟩
  rw [hinc]
  exact sumAmounts_filter_split filtered

/-- The four sort options of the transactions page. -/
inductive SortOption where
  | dateDesc
  | dateAsc
  | amountDesc
  | amountAsc
deriving DecidableEq, Repr

/-- The integer key whose nondecreasing order matches the JS comparator of
each sort option: the `b − a` style comparators (newest first, highest
absolute amount first) become negated keys. -/
def sortKeyFn : SortOption → Transaction → Int
  | .dateDesc, t => -(effTime t)
  | .dateAsc, t => effTime t
  | .amountDesc, t => -|t.amount|
  | .amountAsc, t => |t.amount|

/-- The total preorder induced by the comparator of sort option `o`. -/
def sortLE (o : SortOption) (a b : Transaction) : Prop :=
  sortKeyFn o a ≤ sortKeyFn o b

instance (o : SortOption) : DecidableRel (sortLE o) := fun a b =>
  inferInstanceAs (Decidable (sortKeyFn o a ≤ sortKeyFn o b))

instance (o : SortOption) : IsTotal Transaction (sortLE o) :=
  ⟨fun a b => le_total (sortKeyFn o a) (sortKeyFn o b)⟩

instance (o : SortOption) : IsTrans Transaction (sortLE o) :=
  ⟨fun _ _ _ hab hbc => le_trans hab hbc⟩

/-- The sort step `filtered.sort(comparator)`: JS `Array.prototype.sort` is
a stable sort consistent with the comparator, modelled as insertion sort by
the comparator's total preorder. -/
def sortTransactions (o : SortOption) (l : List Transaction) : List Transaction :=
  l.insertionSort (sortLE o)

theorem filter_key_orderedInsert (o : SortOption) (k : Int) (x : Transaction)
    (l : List Transaction) :
    (l.orderedInsert (sortLE o) x).filter (fun t => decide (sortKeyFn o t = k))
      = if sortKeyFn o x = k
          then x :: l.filter (fun t => decide (sortKeyFn o t = k))
          else l.filter (fun t => decide (sortKeyFn o t = k)) := by
  induction l with
  | nil =>
    by_cases h : sortKeyFn o x = k
    · rw [if_pos h]
      simp [List.orderedInsert, List.filter_cons, h]
    · rw [if_neg h]
      simp [List.orderedInsert, List.filter_cons, h]
  | cons b l ih =>
    rw [List.orderedInsert]
    by_cases hxb : sortLE o x b
    · rw [if_pos hxb]
      by_cases h : sortKeyFn o x = k
      · rw [if_pos h, List.filter_cons, if_pos (by simpa using h)]
      · rw [if_neg h, List.filter_cons, if_neg (by simpa using h)]
    · rw [if_neg hxb]
      have hbx : sortKeyFn o b < sortKeyFn o x := not_le.mp hxb
      by_cases h : sortKeyFn o x = k
      · have hbk : sortKeyFn o b ≠ k := by omega
        rw [if_pos h, List.filter_cons, if_neg (by simpa using hbk), ih, if_pos h,
          List.filter_cons, if_neg (by simpa using hbk)]
      · rw [if_neg h, List.filter_cons, ih, if_neg h, List.filter_cons]

theorem filter_key_insertionSort (o : SortOption) (k : Int) (l : List Transaction) :
    (sortTransactions o l).filter (fun t => decide (sortKeyFn o t = k))
      = l.filter (fun t => decide (sortKeyFn o t = k)) := by
  simp only [sortTransactions]
  induction l with
  | nil => rfl
  | cons b l ih =>
    rw [List.insertionSort, filter_key_orderedInsert]
    by_cases h : sortKeyFn o b = k
    · rw [if_pos h, List.filter_cons, if_pos (by simpa using h), ih]
    · rw [if_neg h, List.filter_cons, if_neg (by simpa using h), ih]

/-- C5: the transaction sort is total (its output is a permutation of the
input, sorted by the comparator's total preorder), stable (the subsequence
of elements sharing any given sort key is exactly preserved), and on inputs
whose transactions have pairwise distinct effective dates, date-desc yields
exactly the reverse of date-asc. -/
theorem sortTransactions_spec (o : SortOption) (l : List Transaction) (k : Int) :
    (sortTransactions o l).Perm l
    ∧ (sortTransactions o l).Sorted (sortLE o)
    ∧ (sortTransactions o l).filter (fun t => decide (sortKeyFn o t = k))
        = l.filter (fun t => decide (sortKeyFn o t = k))
    ∧ ((l.map effTime).Nodup →
        sortTransactions .dateDesc l = (sortTransactions .dateAsc l).reverse) := by
  refine ⟨List.perm_insertionSort _ l, List.sorted_insertionSort _ l,
    filter_key_insertionSort o k l, fun hnd => ?_⟩
  have hperm : (sortTransactions .dateDesc l).Perm ((sortTransactions .dateAsc l).reverse) :=
    (List.perm_insertionSort _ l).trans
      (((List.reverse_perm _).trans (List.perm_insertionSort _ l)).symm)
  have hne : l.Pairwise fun a b => effTime a ≠ effTime b := List.pairwise_map.mp hnd
  have hd : (sortTransactions .dateDesc l).Pairwise fun a b => effTime b < effTime a := by
    have hs : (sortTransactions .dateDesc l).Pairwise fun a b => effTime b ≤ effTime a := by
      have h0 := List.sorted_insertionSort (sortLE .dateDesc) l
      exact h0.imp fun hab => by simpa [sortLE, sortKeyFn] using hab
    have hne' : (sortTransactions .dateDesc l).Pairwise fun a b => effTime a ≠ effTime b :=
      ((List.perm_insertionSort (sortLE .dateDesc) l).pairwise_iff
        (fun hxy => hxy.symm)).mpr hne
    exact (hs.and hne').imp fun hab => lt_of_le_of_ne hab.1 fun he => hab.2 he.symm
  have ha : ((sortTransactions .dateAsc l).reverse).Pairwise
      fun a b => effTime b < effTime a := by
    have hs0 : (sortTransactions .dateAsc l).Pairwise fun a b => effTime a ≤ effTime b := by
      have h0 := List.sorted_insertionSort (sortLE .dateAsc) l
      exact h0.imp fun hab => by simpa [sortLE, sortKeyFn] using hab
    have hs : ((sortTransactions .dateAsc l).reverse).Pairwise
        fun a b => effTime b ≤ effTime a := List.pairwise_reverse.mpr hs0
    have hne' : ((sortTransactions .dateAsc l).reverse).Pairwise
        fun a b => effTime a ≠ effTime b :=
      (((List.reverse_perm _).trans (List.perm_insertionSort (sortLE .dateAsc) l)).pairwise_iff
        (fun hxy => hxy.symm)).mpr hne
    exact (hs.and hne').imp fun hab => lt_of_le_of_ne hab.1 fun he => hab.2 he.symm
  haveI : IsAntisymm Transaction fun a b => effTime b < effTime a :=
    ⟨fun a b h1 h2 => absurd (h1.trans h2) (lt_irrefl _)⟩
  exact List.eq_of_perm_of_sorted hperm hd ha

/-- A concrete transaction used to witness the distinct-dates reversal. -/
def sortExA : Transaction :=
  { id := 3, amount := 10, transaction_time := some 3000, entry_time := none }

/-- A second concrete transaction, with a different effective date. -/
def sortExB : Transaction :=
  { id := 4, amount := -20, transaction_time := some 1000, entry_time := none }

theorem sortTransactions_spec_witness :
    ([sortExA, sortExB].map effTime).Nodup
    ∧ sortTransactions .dateDesc [sortExA, sortExB]
        = (sortTransactions .dateAsc [sortExA, sortExB]).reverse :=
  ⟨by decide, (sortTransactions_spec .dateDesc [sortExA, sortExB] 0).2.2.2 (by decide)⟩

/-- Milliseconds in a calendar day. -/
def dayMs : Int := 86400000

/-- The grouping key of the desktop transaction list: the calendar day
(modelled in UTC) of `transaction_time`, falling back to `entry_time`,
falling back to the current time `now` (the component uses `new Date()`
there, unlike the filter/sort steps which fall back to the epoch). -/
def groupKey (now : Int) (t : Transaction) : Int :=
  (match t.transaction_time with
   | some x => x
   | none =>
     match t.entry_time with
     | some e => e
     | none => now).ediv dayMs

instance : DecidableRel fun a b : Int => b ≤ a := fun a b =>
  inferInstanceAs (Decidable (b ≤ a))

instance : IsTotal Int fun a b : Int => b ≤ a := ⟨fun a b => le_total b a⟩

instance : IsTrans Int fun a b : Int => b ≤ a := ⟨fun _ _ _ h1 h2 => le_trans h2 h1⟩

/-- The displayed order of the day buckets: the distinct group keys of the
list, sorted descending by date (the component always sorts its bucket
keys newest first, whatever the chosen sort option was). -/
def dayKeys (now : Int) (l : List Transaction) : List Int :=
  ((l.map (groupKey now)).dedup).insertionSort fun a b => b ≤ a

/-- Grouping by calendar day followed by flattening the buckets in their
displayed order: each bucket keeps the relative order of `l`, and the
buckets are concatenated newest day first. -/
def flattenGroups (now : Int) (l : List Transaction) : List Transaction :=
  (dayKeys now l).flatMap fun k => l.filter fun t => decide (groupKey now t = k)

theorem filter_key_eq_takeWhile (f : Transaction → Int) (k : Int) :
    ∀ l : List Transaction,
      l.Pairwise (fun a b => f b ≤ f a) →
      (∀ t ∈ l, f t = k ∨ f t < k) →
      l.filter (fun t => decide (f t = k)) = l.takeWhile (fun t => decide (f t = k))
        ∧ ∀ t ∈ l.dropWhile (fun t => decide (f t = k)), f t < k := by
  intro l
  induction l with
  | nil => exact fun _ _ => ⟨rfl, by simp⟩
  | cons t l ih =>
    intro hp hcov
    by_cases h : f t = k
    · have hrec := ih hp.of_cons fun u hu => hcov u (List.mem_cons_of_mem _ hu)
      refine ⟨?_, ?_⟩
      · rw [List.filter_cons, if_pos (by simpa using h),
          List.takeWhile_cons_of_pos (by simpa using h), hrec.1]
      · rw [List.dropWhile_cons_of_pos (by simpa using h)]
        exact hrec.2
    · have hlt : f t < k := (hcov t (List.mem_cons_self t l)).resolve_left h
      refine ⟨?_, ?_⟩
      · rw [List.filter_cons, if_neg (by simpa using h),
          List.takeWhile_cons_of_neg (by simpa using h), List.filter_eq_nil_iff]
        intro u hu
        have hle : f u ≤ f t := (List.pairwise_cons.mp hp).1 u hu
        simp only [decide_eq_true_eq]
        omega
      · rw [List.dropWhile_cons_of_neg (by simpa using h)]
        intro u hu
        rcases List.mem_cons.mp hu with rfl | hu'
        · exact hlt
        · have hle : f u ≤ f t := (List.pairwise_cons.mp hp).1 u hu'
          omega

theorem flatMap_congr_mem {α β : Type} (ks : List α) (f g : α → List β)
    (h : ∀ k ∈ ks, f k = g k) : ks.flatMap f = ks.flatMap g := by
  induction ks with
  | nil => rfl
  | cons k ks ih =>
    rw [List.flatMap_cons, List.flatMap_cons, h k (List.mem_cons_self k ks),
      ih fun u hu => h u (List.mem_cons_of_mem _ hu)]

theorem flatMap_filter_of_sorted (f : Transaction → Int) :
    ∀ (ks : List Int) (l : List Transaction),
      ks.Pairwise (fun a b => b < a) →
      (∀ t ∈ l, f t ∈ ks) →
      l.Pairwise (fun a b => f b ≤ f a) →
      (ks.flatMap fun k => l.filter fun t => decide (f t = k)) = l := by
  intro ks
  induction ks with
  | nil =>
    intro l _ hcov _
    cases l with
    | nil => rfl
    | cons t l => exact absurd (hcov t (List.mem_cons_self t l)) (List.not_mem_nil _)
  | cons k ks ih =>
    intro l hks hcov hsort
    have hcov' : ∀ t ∈ l, f t = k ∨ f t < k := by
      intro t ht
      rcases List.mem_cons.mp (hcov t ht) with h | h
      · exact Or.inl h
      · exact Or.inr ((List.pairwise_cons.mp hks).1 _ h)
    obtain ⟨hfil, hdrop⟩ := filter_key_eq_takeWhile f k l hsort hcov'
    have hsplit : l.takeWhile (fun t => decide (f t = k))
        ++ l.dropWhile (fun t => decide (f t = k)) = l :=
      List.takeWhile_append_dropWhile _ _
    have heach : ∀ k' ∈ ks, (l.filter fun t => decide (f t = k'))
        = ((l.dropWhile fun t => decide (f t = k)).filter fun t => decide (f t = k')) := by
      intro k' hk'
      have hk'k : k' < k := (List.pairwise_cons.mp hks).1 _ hk'
      conv_lhs => rw [← hsplit]
      rw [List.filter_append]
      have hnil : ((l.takeWhile fun t => decide (f t = k)).filter
          fun t => decide (f t = k')) = [] := by
        rw [List.filter_eq_nil_iff]
        intro u hu
        have huk : f u = k := by simpa using List.mem_takeWhile_imp hu
        simp only [decide_eq_true_eq]
        omega
      rw [hnil, List.nil_append]
    have hcov₂ : ∀ t ∈ l.dropWhile (fun t => decide (f t = k)), f t ∈ ks := by
      intro t ht
      have h1 : f t ∈ k :: ks := hcov t ((List.dropWhile_sublist _).subset ht)
      have h2 : f t < k := hdrop t ht
      rcases List.mem_cons.mp h1 with h | h
      · omega
      · exact h
    have hsort₂ : (l.dropWhile fun t => decide (f t = k)).Pairwise
        fun a b => f b ≤ f a :=
      List.Pairwise.sublist (List.dropWhile_sublist _) hsort
    rw [List.flatMap_cons, hfil, flatMap_congr_mem ks _ _ heach,
      ih _ hks.of_cons hcov₂ hsort₂]
    exact hsplit

/-- A concrete transaction on calendar day 0 (used against C3). -/
def groupExA : Transaction :=
  { id := 5, amount := 1, transaction_time := some 1000, entry_time := none }

/-- A concrete transaction on calendar day 1 (used against C3). -/
def groupExB : Transaction :=
  { id := 6, amount := 2, transaction_time := some 86401000, entry_time := none }

/-- C3 (counterexample): with the date-ascending sort option, the day
buckets are still displayed newest day first, so flattening them does not
reproduce the sorted input: on two transactions lying on consecutive days,
date-asc sorting yields the older one first, but the flattened grouping
yields the newer one first. -/
theorem flattenGroups_roundTrip_counterexample :
    sortTransactions .dateAsc [groupExA, groupExB] = [groupExA, groupExB]
    ∧ flattenGroups 0 (sortTransactions .dateAsc [groupExA, groupExB])
        = [groupExB, groupExA]
    ∧ flattenGroups 0 (sortTransactions .dateAsc [groupExA, groupExB])
        ≠ sortTransactions .dateAsc [groupExA, groupExB] :=
  ⟨by decide, by decide, by decide⟩

/-- C3 (amended): the day buckets are always displayed newest day first,
regardless of the chosen sort option, so the group-then-flatten round-trip
holds exactly for the date-descending sort: for every input whose
transactions carry at least one timestamp, grouping the date-desc sorted
list by calendar day and flattening the buckets in displayed order
reproduces that sorted list. -/
theorem flattenGroups_dateDesc (now : Int) (l : List Transaction)
    (h : ∀ t ∈ l, t.transaction_time ≠ none ∨ t.entry_time ≠ none) :
    flattenGroups now (sortTransactions .dateDesc l) = sortTransactions .dateDesc l := by
  have hmem : ∀ t ∈ sortTransactions .dateDesc l,
      t.transaction_time ≠ none ∨ t.entry_time ≠ none := fun t ht =>
    h t ((List.perm_insertionSort (sortLE .dateDesc) l).subset ht)
  have hkey : ∀ t ∈ sortTransactions .dateDesc l,
      groupKey now t = (effTime t).ediv dayMs := by
    intro t ht
    cases htt : t.transaction_time with
    | some x => simp [groupKey, effTime, htt]
    | none =>
      cases hte : t.entry_time with
      | some e => simp [groupKey, effTime, htt, hte]
      | none =>
        rcases hmem t ht with h1 | h1
        · exact absurd htt h1
        · exact absurd hte h1
  have hsorted : (sortTransactions .dateDesc l).Pairwise
      fun a b => groupKey now b ≤ groupKey now a := by
    have hs : (sortTransactions .dateDesc l).Pairwise
        fun a b => effTime b ≤ effTime a := by
      have h0 := List.sorted_insertionSort (sortLE .dateDesc) l
      exact h0.imp fun hab => by simpa [sortLE, sortKeyFn] using hab
    refine hs.imp_of_mem fun {a b} ha hb hab => ?_
    rw [hkey a ha, hkey b hb]
    exact Int.ediv_le_ediv (by norm_num [dayMs]) hab
  have hkeysdesc : (dayKeys now (sortTransactions .dateDesc l)).Pairwise
      fun a b => b < a := by
    have hsorted' : (dayKeys now (sortTransactions .dateDesc l)).Pairwise
        fun a b : Int => b ≤ a := List.sorted_insertionSort _ _
    have hnd : (dayKeys now (sortTransactions .dateDesc l)).Pairwise
        fun a b : Int => a ≠ b :=
      ((List.perm_insertionSort _ _).nodup_iff).mpr (List.nodup_dedup _)
    exact (hsorted'.and hnd).imp fun hab => lt_of_le_of_ne hab.1 hab.2.symm
  have hcov : ∀ t ∈ sortTransactions .dateDesc l,
      groupKey now t ∈ dayKeys now (sortTransactions .dateDesc l) := by
    intro t ht
    rw [dayKeys, List.mem_insertionSort, List.mem_dedup]
    exact List.mem_map_of_mem _ ht
  exact flatMap_filter_of_sorted (groupKey now) _ _ hkeysdesc hcov hsorted

theorem flattenGroups_dateDesc_witness :
    (∀ t ∈ [groupExA, groupExB], t.transaction_time ≠ none ∨ t.entry_time ≠ none)
    ∧ flattenGroups 0 (sortTransactions .dateDesc [groupExA, groupExB])
        = sortTransactions .dateDesc [groupExA, groupExB] :=
  ⟨by decide, flattenGroups_dateDesc 0 [groupExA, groupExB] (by decide)⟩

/-- Start of the calendar day containing `x` (UTC model):
`new Date(now.setHours(0,0,0,0))`. -/
def startOfDay (x : Int) : Int := x.ediv dayMs * dayMs

/-- Day of week (0 = Sunday) of the day containing `x`: the epoch day,
1970-01-01, was a Thursday. -/
def dayOfWeek (x : Int) : Int := (x.ediv dayMs + 4).emod 7

/-- date-fns `startOfWeek` with its default week start (Sunday), UTC model. -/
def startOfWeek (x : Int) : Int := startOfDay x - dayOfWeek x * dayMs

/-- date-fns `endOfWeek`: the last millisecond of the week containing `x`
(Saturday 23:59:59.999), UTC model. -/
def endOfWeek (x : Int) : Int := startOfWeek x + 7 * dayMs - 1

/-- Proleptic-Gregorian civil date (year, month, day) of a day number
(days since 1970-01-01); the standard civil-from-days algorithm. -/
def civilFromDays (z : Int) : Int × Int × Int :=
  let w := z + 719468
  let era := w.ediv 146097
  let doe := w - era * 146097
  let yoe := (doe - doe.ediv 1460 + doe.ediv 36524 - doe.ediv 146096).ediv 365
  let y := yoe + era * 400
  let doy := doe - (365 * yoe + yoe.ediv 4 - yoe.ediv 100)
  let mp := (5 * doy + 2).ediv 153
  let d := doy - (153 * mp + 2).ediv 5 + 1
  let m := mp + (if mp < 10 then 3 else -9)
  (y + (if m ≤ 2 then 1 else 0), m, d)

/-- Day number (days since 1970-01-01) of a proleptic-Gregorian civil date;
the standard days-from-civil algorithm. -/
def daysFromCivil (y m d : Int) : Int :=
  let y' := y - (if m ≤ 2 then 1 else 0)
  let era := y'.ediv 400
  let yoe := y' - era * 400
  let doy := (153 * (m + (if 2 < m then -3 else 9)) + 2).ediv 5 + d - 1
  let doe := yoe * 365 + yoe.ediv 4 - yoe.ediv 100 + doy
  era * 146097 + doe - 719468

/-- date-fns `startOfMonth` (UTC model): midnight on the first of the month. -/
def startOfMonth (x : Int) : Int :=
  let c := civilFromDays (x.ediv dayMs)
  daysFromCivil c.1 c.2.1 1 * dayMs

/-- date-fns `endOfMonth` (UTC model): the last millisecond of the month. -/
def endOfMonth (x : Int) : Int :=
  let c := civilFromDays (x.ediv dayMs)
  (if c.2.1 = 12 then daysFromCivil (c.1 + 1) 1 1
   else daysFromCivil c.1 (c.2.1 + 1) 1) * dayMs - 1

/-- The custom range state of the page (react-day-picker `DateRange`): a
chosen start and an optionally chosen end, both midnights picked in the
calendar widget. -/
structure DateRange where
  fromD : Int
  toD : Option Int
deriving DecidableEq, Repr

/-- The five values of the transactions-page date filter. -/
inductive DateFilter where
  | all
  | today
  | week
  | month
  | custom
deriving DecidableEq, Repr

/-- The date-filter step of `filteredTransactions`, transcribed branch by
branch: `today` keeps dates ≥ start of today with no upper bound; `week`
and `month` compare against both interval ends inclusively; `custom` with a
chosen start keeps dates between the start and the end (defaulting to the
start) inclusively; `custom` without a chosen range behaves like `all`. -/
def filterByDate (df : DateFilter) (now : Int) (range : Option DateRange)
    (l : List Transaction) : List Transaction :=
  match df with
  | .all => l
  | .today => l.filter fun t => decide (startOfDay now ≤ effTime t)
  | .week => l.filter fun t =>
      decide (startOfWeek now ≤ effTime t) && decide (effTime t ≤ endOfWeek now)
  | .month => l.filter fun t =>
      decide (startOfMonth now ≤ effTime t) && decide (effTime t ≤ endOfMonth now)
  | .custom =>
    match range with
    | none => l
    | some r => l.filter fun t =>
        decide (r.fromD ≤ effTime t) && decide (effTime t ≤ r.toD.getD r.fromD)

/-- The date filter as C4 states it, modelled from the claim's words for
comparison: membership in a half-open interval `[start, end)`, where
`today` claims the interval up to the start of the next day, `week` and
`month` up to the first instant after the period, and `custom` up to the
picked end, defaulting to the picked start. -/
def filterByDateClaimed (df : DateFilter) (now : Int) (range : Option DateRange)
    (l : List Transaction) : List Transaction :=
  match df with
  | .all => l
  | .today => l.filter fun t =>
      decide (startOfDay now ≤ effTime t) && decide (effTime t < startOfDay now + dayMs)
  | .week => l.filter fun t =>
      decide (startOfWeek now ≤ effTime t) && decide (effTime t < startOfWeek now + 7 * dayMs)
  | .month => l.filter fun t =>
      decide (startOfMonth now ≤ effTime t) && decide (effTime t < endOfMonth now + 1)
  | .custom =>
    match range with
    | none => l
    | some r => l.filter fun t =>
        decide (r.fromD ≤ effTime t) && decide (effTime t < r.toD.getD r.fromD)

/-- A custom range from day 0 to day 1 (both midnights). -/
def rangeEx : DateRange := { fromD := 0, toD := some 86400000 }

/-- A transaction exactly at the upper endpoint of `rangeEx`. -/
def customBoundaryTx : Transaction :=
  { id := 7, amount := 3, transaction_time := some 86400000, entry_time := none }

/-- A transaction five days after `now = 0`. -/
def futureTx : Transaction :=
  { id := 8, amount := 4, transaction_time := some 432001000, entry_time := none }

/-- C4 (counterexample): the intervals of the date filter are not
half-open. A transaction lying exactly on the upper endpoint of a custom
range is kept by the code but excluded by the claimed half-open interval,
and the `today` filter has no upper bound at all: it keeps a transaction
dated five days after `now`, which every half-open interval for `today`
excludes. -/
theorem filterByDate_halfOpen_counterexample :
    filterByDate .custom 0 (some rangeEx) [customBoundaryTx] = [customBoundaryTx]
    ∧ filterByDateClaimed .custom 0 (some rangeEx) [customBoundaryTx] = []
    ∧ filterByDate .today 0 none [futureTx] = [futureTx]
    ∧ filterByDateClaimed .today 0 none [futureTx] = [] :=
  ⟨by decide, by decide, by decide, by decide⟩

/-- The date window the code actually implements (used to state the
amended C4): a closed lower bound always; `today` has no upper bound;
`week`, `month` and a chosen `custom` range have inclusive upper bounds,
`custom` defaulting its end to the chosen start when no end is picked. -/
def inDateWindow (df : DateFilter) (now : Int) (range : Option DateRange)
    (d : Int) : Prop :=
  match df with
  | .all => True
  | .today => startOfDay now ≤ d
  | .week => startOfWeek now ≤ d ∧ d ≤ endOfWeek now
  | .month => startOfMonth now ≤ d ∧ d ≤ endOfMonth now
  | .custom =>
    match range with
    | none => True
    | some r => r.fromD ≤ d ∧ d ≤ r.toD.getD r.fromD

/-- C4 (amended): each date filter keeps exactly the transactions whose
effective date (`transaction_time` if present, else `entry_time`, else the
epoch) lies in the corresponding window; the windows are closed, not
half-open, on their upper ends, `today` has no upper end at all, and a
custom range with only a start defaults its end to that start. -/
theorem filterByDate_membership (df : DateFilter) (now : Int)
    (range : Option DateRange) (l : List Transaction) (t : Transaction) :
    t ∈ filterByDate df now range l ↔ t ∈ l ∧ inDateWindow df now range (effTime t) := by
  cases df with
  | all => simp [filterByDate, inDateWindow]
  | today => simp [filterByDate, inDateWindow, List.mem_filter]
  | week => simp [filterByDate, inDateWindow, List.mem_filter]
  | month => simp [filterByDate, inDateWindow, List.mem_filter]
  | custom =>
    cases range with
    | none => simp [filterByDate, inDateWindow]
    | some r => simp [filterByDate, inDateWindow, List.mem_filter]

/-- A category of the desktop categories page: identifier, name, optional
parent reference and nested children (`cat.children || []` is modelled as
a plain list). -/
inductive Cat where
  | mk (id : Int) (name : String) (parent : Option Int) (children : List Cat)

/-- The recursive category count of the categories page:
`cats.reduce((sum, cat) => sum + 1 + countCategories(cat.children || []), 0)`. -/
def countCategories : List Cat → Nat
  | [] => 0
  | .mk _ _ _ children :: rest => 1 + countCategories children + countCategories rest

/-- Depth-first (preorder) traversal of a category forest, parent before
children, siblings in input order. -/
def dfsForest : List Cat → List Cat
  | [] => []
  | .mk i n p children :: rest =>
    .mk i n p children :: (dfsForest children ++ dfsForest rest)

/-- C6: `countCategories` returns the number of nodes reachable by
depth-first traversal from all roots; the empty forest counts 0, and the
two-node tree Food with child Coffee of Scenario B counts 2. -/
theorem countCategories_spec :
    (∀ forest : List Cat, countCategories forest = (dfsForest forest).length)
    ∧ countCategories [] = 0
    ∧ countCategories [Cat.mk 1 "Food" none [Cat.mk 2 "Coffee" (some 1) []]] = 2 := by
  refine ⟨?_, by norm_num [countCategories], by norm_num [countCategories]⟩
  intro forest
  induction forest using countCategories.induct with
  | case1 => simp [countCategories, dfsForest]
  | case2 i n p children rest ih1 ih2 =>
    simp only [countCategories, dfsForest, List.length_cons, List.length_append, ih1, ih2]
    omega

/-- A category of the mobile client variant (the shape used by
CategoryManager and TransactionItem): numeric id, optional name, icon,
global flag, optional parent and root references. -/
structure MCategory where
  category_id : Int
  name : Option String
  icon : String
  is_global : Bool
  parent_id : Option Int
  root_id : Option Int
deriving DecidableEq, Repr

/-- A node of the category tree response: a category and its children. -/
inductive CatTreeNode where
  | mk (category : MCategory) (children : List CatTreeNode)

/-- The category stored in a tree node. -/
def CatTreeNode.category : CatTreeNode → MCategory
  | .mk c _ => c

/-- The `rootCategories` memo of the CategoryManager: the flat list of root
categories offered as candidate parents, excluding the category currently
being edited (matched by id). -/
def rootCategories (tree : List CatTreeNode) (editing : Option MCategory) :
    List MCategory :=
  (tree.map CatTreeNode.category).filter fun cat =>
    match editing with
    | none => true
    | some e => cat.category_id != e.category_id

/-- C7: while editing category C, the candidate-parent list is exactly the
root categories of the fetched tree minus C: membership is equivalent to
being a root with an id different from C's, C itself never appears, and
when root ids are unique the list is literally the roots with C removed. -/
theorem rootCategories_spec (tree : List CatTreeNode) (C : MCategory) :
    (∀ cat, cat ∈ rootCategories tree (some C)
        ↔ cat ∈ tree.map CatTreeNode.category ∧ cat.category_id ≠ C.category_id)
    ∧ C ∉ rootCategories tree (some C)
    ∧ ((∀ cat ∈ tree.map CatTreeNode.category, cat.category_id = C.category_id → cat = C) →
        rootCategories tree (some C)
          = (tree.map CatTreeNode.category).filter fun cat => decide (cat ≠ C)) := by
  have hmem : ∀ cat, cat ∈ rootCategories tree (some C)
      ↔ cat ∈ tree.map CatTreeNode.category ∧ cat.category_id ≠ C.category_id := by
    intro cat
    simp [rootCategories, List.mem_filter]
  refine ⟨hmem, ?_, ?_⟩
  · intro hC
    exact ((hmem C).mp hC).2 rfl
  · intro hinj
    refine List.filter_congr ?_
    intro cat hcat
    by_cases h : cat.category_id = C.category_id
    · have hcC : cat = C := hinj cat hcat h
      subst hcC
      show (cat.category_id != cat.category_id) = decide (cat ≠ cat)
      simp
    · have h1 : (cat.category_id != C.category_id) = true := bne_iff_ne.mpr h
      have h2 : decide (cat ≠ C) = true :=
        decide_eq_true_eq.mpr fun e => h (by rw [e])
      show (cat.category_id != C.category_id) = decide (cat ≠ C)
      rw [h1, h2]

/-- A concrete root category (id 1). -/
def catFood : MCategory :=
  { category_id := 1, name := some "Food", icon := "F", is_global := false,
    parent_id := none, root_id := none }

/-- A second concrete root category (id 3). -/
def catRent : MCategory :=
  { category_id := 3, name := some "Rent", icon := "R", is_global := false,
    parent_id := none, root_id := none }

/-- A concrete two-root category tree. -/
def treeEx : List CatTreeNode := [.mk catFood [], .mk catRent []]

theorem rootCategories_spec_witness :
    (∀ cat ∈ treeEx.map CatTreeNode.category,
        cat.category_id = catFood.category_id → cat = catFood)
    ∧ rootCategories treeEx (some catFood)
        = (treeEx.map CatTreeNode.category).filter fun cat => decide (cat ≠ catFood) :=
  ⟨by decide, (rootCategories_spec treeEx catFood).2.2 (by decide)⟩

/-- A wallet as read by the wallet summaries; a missing balance is treated
as 0 (`w.balance || 0`). -/
structure Wallet where
  id : Int
  name : String
  balance : Option Int
  is_enabled : Bool
deriving DecidableEq, Repr

/-- WalletsPage `totalBalance`: enabled wallets contribute their balance,
disabled wallets contribute 0. -/
def walletsPageTotalBalance (ws : List Wallet) : Int :=
  ws.foldl (fun sum w => sum + (if w.is_enabled then w.balance.getD 0 else 0)) 0

/-- WalletsPage `activeWallets`: the number of enabled wallets. -/
def activeWallets (ws : List Wallet) : Nat :=
  (ws.filter fun w => w.is_enabled).length

/-- Dashboard `stats.totalBalance`: sums every wallet's balance, with no
enabled check. -/
def dashboardTotalBalance (ws : List Wallet) : Int :=
  ws.foldl (fun sum w => sum + w.balance.getD 0) 0

theorem foldl_add_enabled (ws : List Wallet) (a : Int) :
    ws.foldl (fun sum w => sum + (if w.is_enabled then w.balance.getD 0 else 0)) a
      = a + ((ws.filter fun w => w.is_enabled).map fun w => w.balance.getD 0).sum := by
  induction ws generalizing a with
  | nil => simp
  | cons w ws ih =>
    by_cases h : w.is_enabled = true
    · simp only [List.foldl_cons, List.filter_cons, h, if_true, List.map_cons,
        List.sum_cons, ih]
      ring
    · simp only [List.foldl_cons, List.filter_cons, h, if_false, ih,
        Bool.false_eq_true]
      rw [add_zero]

theorem foldl_add_balance (ws : List Wallet) (a : Int) :
    ws.foldl (fun sum w => sum + w.balance.getD 0) a
      = a + (ws.map fun w => w.balance.getD 0).sum := by
  induction ws generalizing a with
  | nil => simp
  | cons w ws ih =>
    simp only [List.foldl_cons, List.map_cons, List.sum_cons, ih]
    ring

/-- Scenario C, first wallet: balance 100, enabled. -/
def walletEx1 : Wallet :=
  { id := 1, name := "W1", balance := some 100, is_enabled := true }

/-- Scenario C, second wallet: balance 50, disabled. -/
def walletEx2 : Wallet :=
  { id := 2, name := "W2", balance := some 50, is_enabled := false }

/-- C8 (counterexample): on Scenario C's wallet list, the Dashboard's
displayed total balance is 150, not 100: it sums disabled wallets too,
contrary to the claim that the displayed total excludes them. -/
theorem dashboardTotalBalance_counterexample :
    dashboardTotalBalance [walletEx1, walletEx2] = 150
    ∧ walletsPageTotalBalance [walletEx1, walletEx2] = 100
    ∧ dashboardTotalBalance [walletEx1, walletEx2] ≠ 100 :=
  ⟨by decide, by decide, by decide⟩

/-- C8 (amended): the WalletsPage total balance is the sum of the balances
of enabled wallets only and its active count is the number of enabled
wallets (on Scenario C's list: 100 and 1); the Dashboard total balance
instead sums the balances of all wallets, disabled ones included (150 on
the same list). -/
theorem walletTotals_spec (ws : List Wallet) :
    walletsPageTotalBalance ws
        = ((ws.filter fun w => w.is_enabled).map fun w => w.balance.getD 0).sum
    ∧ activeWallets ws = (ws.filter fun w => w.is_enabled).length
    ∧ dashboardTotalBalance ws = (ws.map fun w => w.balance.getD 0).sum
    ∧ walletsPageTotalBalance [walletEx1, walletEx2] = 100
    ∧ activeWallets [walletEx1, walletEx2] = 1 := by
  refine ⟨?_, rfl, ?_, by decide, by decide⟩
  · rw [walletsPageTotalBalance, foldl_add_enabled, zero_add]
  · rw [dashboardTotalBalance, foldl_add_balance, zero_add]

/-- A user of the desktop app context. -/
structure UserD where
  id : Int
  username : String
deriving DecidableEq, Repr

/-- The desktop AppContext state: the four fetched collections, the two
selections, and the emitted toast notifications. -/
structure AppState where
  users : List UserD
  wallets : List Wallet
  categories : List Cat
  transactions : List Transaction
  selectedWallet : Option Wallet
  selectedUser : Option UserD
  toasts : List String

/-- Desktop `refreshTransactions`: on a successful fetch replace the
transactions; on failure only emit a toast, leaving all state as it was. -/
def refreshTransactionsD (s : AppState) (fetched : Except String (List Transaction)) :
    AppState :=
  match fetched with
  | .ok data => { s with transactions := data }
  | .error _ => { s with toasts := "Failed to refresh transactions" :: s.toasts }

/-- Desktop `refreshWallets`: analogous, for the wallets collection. -/
def refreshWalletsD (s : AppState) (fetched : Except String (List Wallet)) : AppState :=
  match fetched with
  | .ok data => { s with wallets := data }
  | .error _ => { s with toasts := "Failed to refresh wallets" :: s.toasts }

/-- Desktop `refreshCategories`: only acts when a wallet is selected (the
fetch is scoped to it); on success replace the categories, on failure only
emit a toast. -/
def refreshCategoriesD (s : AppState) (fetched : Except String (List Cat)) : AppState :=
  match s.selectedWallet with
  | none => s
  | some _ =>
    match fetched with
    | .ok data => { s with categories := data }
    | .error _ => { s with toasts := "Failed to refresh categories" :: s.toasts }

/-- A wallet of the mobile client variant. -/
structure MWallet where
  wallet_id : Int
  name : String
deriving DecidableEq, Repr

/-- A user of the mobile client variant. -/
structure MUser where
  user_id : Int
  username : String
deriving DecidableEq, Repr

/-- The envelope the mobile API client returns. -/
structure ApiEnvelope (α : Type) where
  success : Bool
  data : Option α
deriving DecidableEq, Repr

/-- The mobile useApp provider state. -/
structure MState where
  wallets : List MWallet
  users : List MUser
  selectedWallet : Option MWallet
  selectedUser : Option MUser
deriving DecidableEq, Repr

/-- Mobile `refreshWallets`: on a successful envelope replace the wallets
(`response.data || []`) and default-select the first wallet when none is
selected; on an unsuccessful envelope or a thrown error change nothing
(the failure is only logged). -/
def refreshWalletsM (s : MState) (fetched : Except String (ApiEnvelope (List MWallet))) :
    MState :=
  match fetched with
  | .error _ => s
  | .ok resp =>
    if resp.success then
      let s' := { s with wallets := resp.data.getD [] }
      match s.selectedWallet, resp.data with
      | none, some (w :: _) => { s' with selectedWallet := some w }
      | _, _ => s'
    else s

/-- Mobile `refreshUsers`: analogous, for the users collection and the
selected user. -/
def refreshUsersM (s : MState) (fetched : Except String (ApiEnvelope (List MUser))) :
    MState :=
  match fetched with
  | .error _ => s
  | .ok resp =>
    if resp.success then
      let s' := { s with users := resp.data.getD [] }
      match s.selectedUser, resp.data with
      | none, some (u :: _) => { s' with selectedUser := some u }
      | _, _ => s'
    else s

/-- C9: each single-collection refresh leaves, on a failed fetch, every
collection and selection exactly as it was (the desktop variants only add
a toast; the mobile variants change nothing, also on an unsuccessful
envelope); and on a successful fetch each refresh touches only its own
collection, so a failure of one refresh cannot affect the others. -/
theorem refresh_isolation_spec (s : AppState) (m : MState) (e : String)
    (dT : List Transaction) (dW : List Wallet) (dC : List Cat)
    (respW : ApiEnvelope (List MWallet)) (respU : ApiEnvelope (List MUser))
    (dmW : Option (List MWallet)) (dmU : Option (List MUser)) :
    ((refreshTransactionsD s (.error e)).transactions = s.transactions
      ∧ (refreshTransactionsD s (.error e)).wallets = s.wallets
      ∧ (refreshTransactionsD s (.error e)).categories = s.categories
      ∧ (refreshTransactionsD s (.error e)).users = s.users
      ∧ (refreshTransactionsD s (.error e)).selectedWallet = s.selectedWallet
      ∧ (refreshTransactionsD s (.error e)).selectedUser = s.selectedUser)
    ∧ ((refreshWalletsD s (.error e)).transactions = s.transactions
      ∧ (refreshWalletsD s (.error e)).wallets = s.wallets
      ∧ (refreshWalletsD s (.error e)).categories = s.categories
      ∧ (refreshWalletsD s (.error e)).users = s.users
      ∧ (refreshWalletsD s (.error e)).selectedWallet = s.selectedWallet
      ∧ (refreshWalletsD s (.error e)).selectedUser = s.selectedUser)
    ∧ ((refreshCategoriesD s (.error e)).transactions = s.transactions
      ∧ (refreshCategoriesD s (.error e)).wallets = s.wallets
      ∧ (refreshCategoriesD s (.error e)).categories = s.categories
      ∧ (refreshCategoriesD s (.error e)).users = s.users
      ∧ (refreshCategoriesD s (.error e)).selectedWallet = s.selectedWallet
      ∧ (refreshCategoriesD s (.error e)).selectedUser = s.selectedUser)
    ∧ ((refreshTransactionsD s (.ok dT)).wallets = s.wallets
      ∧ (refreshTransactionsD s (.ok dT)).categories = s.categories
      ∧ (refreshTransactionsD s (.ok dT)).users = s.users)
    ∧ ((refreshWalletsD s (.ok dW)).transactions = s.transactions
      ∧ (refreshWalletsD s (.ok dW)).categories = s.categories
      ∧ (refreshWalletsD s (.ok dW)).users = s.users)
    ∧ ((refreshCategoriesD s (.ok dC)).transactions = s.transactions
      ∧ (refreshCategoriesD s (.ok dC)).wallets = s.wallets
      ∧ (refreshCategoriesD s (.ok dC)).users = s.users)
    ∧ refreshWalletsM m (.error e) = m
    ∧ refreshUsersM m (.error e) = m
    ∧ refreshWalletsM m (.ok { success := false, data := dmW }) = m
    ∧ refreshUsersM m (.ok { success := false, data := dmU }) = m
    ∧ ((refreshWalletsM m (.ok respW)).users = m.users
      ∧ (refreshWalletsM m (.ok respW)).selectedUser = m.selectedUser)
    ∧ ((refreshUsersM m (.ok respU)).wallets = m.wallets
      ∧ (refreshUsersM m (.ok respU)).selectedWallet = m.selectedWallet) := by
  refine ⟨⟨rfl, rfl, rfl, rfl, rfl, rfl⟩, ⟨rfl, rfl, rfl, rfl, rfl, rfl⟩,
    ?_, ⟨rfl, rfl, rfl⟩, ⟨rfl, rfl, rfl⟩, ?_, rfl, rfl, rfl, rfl, ?_, ?_⟩
  · cases hsw : s.selectedWallet <;> simp [refreshCategoriesD, hsw]
  · cases hsw : s.selectedWallet <;> simp [refreshCategoriesD, hsw]
  · simp only [refreshWalletsM]
    by_cases hsucc : respW.success = true
    · simp only [hsucc, if_true]
      cases m.selectedWallet <;> cases hd : respW.data <;> try exact ⟨rfl, rfl⟩
      · rename_i ws
        cases ws <;> exact ⟨rfl, rfl⟩
    · simp only [hsucc, if_false]
      exact ⟨rfl, rfl⟩
  · simp only [refreshUsersM]
    by_cases hsucc : respU.success = true
    · simp only [hsucc, if_true]
      cases m.selectedUser <;> cases hd : respU.data <;> try exact ⟨rfl, rfl⟩
      · rename_i us
        cases us <;> exact ⟨rfl, rfl⟩
    · simp only [hsucc, if_false]
      exact ⟨rfl, rfl⟩

/-- Whether `pat` occurs as a contiguous run inside the second list. -/
def isSubstringIn (pat : List Char) : List Char → Bool
  | [] => pat.isEmpty
  | c :: rest => pat.isPrefixOf (c :: rest) || isSubstringIn pat rest

/-- JS `toLowerCase`, modelled characterwise on the underlying characters. -/
def lowerChars (s : String) : List Char := s.toList.map Char.toLower

/-- `category.name?.toLowerCase().includes("income")` on an optional name. -/
def nameHasIncome (c : MCategory) : Bool :=
  match c.name with
  | none => false
  | some n => isSubstringIn "income".toList (lowerChars n)

/-- A transaction as read by the mobile list item: signed amount and
optional category. -/
structure MTransaction where
  amount : Int
  category : Option MCategory
deriving DecidableEq, Repr

/-- The `isIncome` classification of the mobile transaction item, with the
JS `&&` binding tighter than `||`:
`category?.root_id === 1 || category?.name?.toLowerCase().includes("income")
|| transaction.amount > 0 && category?.parent_id === 1`. -/
def isIncome (t : MTransaction) : Bool :=
  (match t.category with
   | some c => c.root_id == some 1
   | none => false)
  || (match t.category with
      | some c => nameHasIncome c
      | none => false)
  || (decide (0 < t.amount)
      && (match t.category with
          | some c => c.parent_id == some 1
          | none => false))

/-- The sign character shown before the displayed absolute amount:
`isIncome ? "+" : "-"`. -/
def amountPrefixChar (t : MTransaction) : String :=
  if isIncome t then "+" else "-"

/-- C10: the mobile list item classifies a transaction as income exactly
when its category's root id is 1, or its category name contains "income"
case-insensitively, or its amount is positive and its category's parent id
is 1; the sign of the amount alone never decides it, so a positive-amount
transaction with a non-income category is displayed with the "-" sign. -/
theorem isIncome_spec (t : MTransaction) (c : MCategory) (h : t.category = some c) :
    (isIncome t = true
      ↔ (c.root_id = some 1 ∨ nameHasIncome c = true
          ∨ (0 < t.amount ∧ c.parent_id = some 1)))
    ∧ (amountPrefixChar t = "+" ↔ isIncome t = true)
    ∧ (0 < t.amount → c.root_id ≠ some 1 → nameHasIncome c = false →
        c.parent_id ≠ some 1 → amountPrefixChar t = "-") := by
  have h1 : isIncome t
      = ((c.root_id == some 1) || nameHasIncome c
          || (decide (0 < t.amount) && (c.parent_id == some 1))) := by
    simp [isIncome, h]
  have hiff : isIncome t = true
      ↔ (c.root_id = some 1 ∨ nameHasIncome c = true
          ∨ (0 < t.amount ∧ c.parent_id = some 1)) := by
    rw [h1]
    simp [Bool.or_eq_true, Bool.and_eq_true, or_assoc]
  have hpre : amountPrefixChar t = "+" ↔ isIncome t = true := by
    cases hI : isIncome t
    · simp only [amountPrefixChar, hI, if_false, Bool.false_eq_true, iff_false]
      decide
    · simp [amountPrefixChar, hI]
  refine ⟨hiff, hpre, ?_⟩
  intro _ hr hn hp
  have e1 : (c.root_id == some 1) = false := by simpa using hr
  have e2 : (c.parent_id == some 1) = false := by simpa using hp
  have hfalse : isIncome t = false := by
    rw [h1, hn, e1, e2]
    simp
  simp [amountPrefixChar, hfalse]

/-- A positive-amount transaction whose category is not income-like. -/
def posNonIncomeTx : MTransaction := { amount := 5, category := some catFood }

theorem isIncome_spec_witness :
    posNonIncomeTx.category = some catFood
    ∧ 0 < posNonIncomeTx.amount
    ∧ catFood.root_id ≠ some 1
    ∧ nameHasIncome catFood = false
    ∧ catFood.parent_id ≠ some 1
    ∧ amountPrefixChar posNonIncomeTx = "-" :=
  ⟨rfl, by decide, by decide, by decide, by decide,
    (isIncome_spec posNonIncomeTx catFood rfl).2.2 (by decide) (by decide)
      (by decide) (by decide)⟩

end SpendingSpark
